import Mathlib

/-!
Verification development for gifsicle's `src/kcolor.h`: the fixed-point
color model (15-bit components), squared-distance, luminance collapse,
reverse-gamma probing, and the kd3 disable/enable interface, together
with spec-modelled versions of the kd-tree query operations whose bodies
live outside the header.

Machine integers are embedded as `Int`/`Nat`; the `uint32_t` conversion in
`kc_distance` is an explicit `% 2^32`.
-/

namespace Kcolor

/-- `KC_MAX`: the largest 15-bit component value, `0x7FFF`. -/
def KC_MAX : Int := 0x7FFF

/-- `kcolor`: a 3D vector, each component has 15 bits of precision
(`int16_t a[3]` in the source, embedded as unbounded `Int`). -/
structure kcolor where
  a : Fin 3 → Int
deriving DecidableEq, Repr

instance : Inhabited kcolor := ⟨⟨fun _ => 0⟩⟩

/-- The kcolor range invariant: every component lies in `[0, KC_MAX]`. -/
def kcInRange (c : kcolor) : Prop := ∀ d : Fin 3, 0 ≤ c.a d ∧ c.a d ≤ KC_MAX

instance (c : kcolor) : Decidable (kcInRange c) := by
  unfold kcInRange; infer_instance

/-- `KC_CLAMPV(v)`: clamp `v` into `[0, KC_MAX]`. -/
def KC_CLAMPV (v : Int) : Int := if v < 0 then 0 else if v < KC_MAX then v else KC_MAX

/-- One gamma table (`uint16_t*` of 256 entries in the source): a total
function on table indices; reads at indices outside `[0,255]` are
out-of-bounds in C and are modelled as failing lookups where they can occur. -/
def GammaTable : Type := Nat → Nat

/-- A C table read `t[i]` at a signed index `i`: defined only when
`0 ≤ i < 256` (the table has 256 entries), otherwise an out-of-bounds
access, modelled as `none`. -/
def gammaLookup (t : GammaTable) (i : Int) : Option Nat :=
  if 0 ≤ i ∧ i < 256 then some (t i.toNat) else none

/-- `kc_set8g`: set `*x` to the gamma transformation of `a0/a1/a2` [RGB].
The source indexes `gamma_tables[0]` directly with the raw arguments. -/
def kc_set8g (t : GammaTable) (a0 a1 a2 : Int) : Option kcolor :=
  match gammaLookup t a0, gammaLookup t a1, gammaLookup t a2 with
  | some v0, some v1, some v2 => some ⟨![(v0 : Int), (v1 : Int), (v2 : Int)]⟩
  | _, _, _ => none

/-- The behavior the spec ascribes to raw-channel entry points: clamp each
channel into the valid 8-bit range `[0, 255]` first. (Stated from the
spec's words, for comparison against `kc_set8g`.) -/
def clamp8 (v : Int) : Int := if v < 0 then 0 else if v < 255 then v else 255

/-- `kc_distance`: the squared Euclidean distance between `*x` and `*y`.
Differences are exact in `int32_t`; the sum is converted to `uint32_t`,
i.e. taken modulo `2^32`. -/
def kc_distance (x y : kcolor) : Nat :=
  (((x.a 0 - y.a 0) * (x.a 0 - y.a 0) +
    (x.a 1 - y.a 1) * (x.a 1 - y.a 1) +
    (x.a 2 - y.a 2) * (x.a 2 - y.a 2)) % (2 ^ 32)).toNat

/-- `kc_luminance`: `(306*a[0] + 601*a[1] + 117*a[2]) >> 10`; the
arithmetic right shift is floor division by `1024`. -/
def kc_luminance (x : kcolor) : Int :=
  Int.fdiv (306 * x.a 0 + 601 * x.a 1 + 117 * x.a 2) 1024

/-- `kc_luminance_transform`: set all three components to `kc_luminance(x)`. -/
def kc_luminance_transform (x : kcolor) : kcolor :=
  ⟨fun _ => kc_luminance x⟩

/-- The exact (mathematical) squared distance between two kcolors. -/
def kcSqDist (x y : kcolor) : Int :=
  (x.a 0 - y.a 0) * (x.a 0 - y.a 0) +
  (x.a 1 - y.a 1) * (x.a 1 - y.a 1) +
  (x.a 2 - y.a 2) * (x.a 2 - y.a 2)

lemma kcSqDist_nonneg (x y : kcolor) : 0 ≤ kcSqDist x y := by
  unfold kcSqDist
  have h0 := mul_self_nonneg (x.a 0 - y.a 0)
  have h1 := mul_self_nonneg (x.a 1 - y.a 1)
  have h2 := mul_self_nonneg (x.a 2 - y.a 2)
  linarith

lemma kcSqDist_lt_of_inRange {x y : kcolor} (hx : kcInRange x) (hy : kcInRange y) :
    kcSqDist x y < 2 ^ 32 := by
  unfold kcSqDist
  have hb : ∀ d : Fin 3, (x.a d - y.a d) * (x.a d - y.a d) ≤ 0x7FFF * 0x7FFF := by
    intro d
    obtain ⟨hx0, hx1⟩ := hx d
    obtain ⟨hy0, hy1⟩ := hy d
    unfold KC_MAX at hx1 hy1
    nlinarith
  have h0 := hb 0
  have h1 := hb 1
  have h2 := hb 2
  norm_num at h0 h1 h2 ⊢
  linarith

/-- For in-range colors the `uint32_t` result of `kc_distance` is the exact
mathematical sum of squared differences: no wrap occurs. -/
lemma kc_distance_exact {x y : kcolor} (hx : kcInRange x) (hy : kcInRange y) :
    (kc_distance x y : Int) = kcSqDist x y := by
  unfold kc_distance
  have hnn := kcSqDist_nonneg x y
  have hlt := kcSqDist_lt_of_inRange hx hy
  unfold kcSqDist at hnn hlt ⊢
  rw [Int.emod_eq_of_lt hnn (by norm_num at hlt ⊢; linarith)]
  exact Int.toNat_of_nonneg hnn

/-- The probing loop of `kc_revgamma_transform` for one component:
`while (c < 0x7F80 && v >= fwd[(c + 0x80) >> 7]) c += 0x80`.
The guard keeps the table index `(c + 0x80) >> 7` within `[0, 255]`. -/
def revgammaLoop (fwd : GammaTable) (v : Nat) (c : Nat) : Nat :=
  if c < 0x7F80 ∧ fwd ((c + 0x80) >>> 7) ≤ v then revgammaLoop fwd v (c + 0x80) else c
termination_by 0x7F80 - c
decreasing_by omega

/-- Number of iterations `revgammaLoop` performs from start value `c`. -/
def revgammaLoopSteps (fwd : GammaTable) (v : Nat) (c : Nat) : Nat :=
  if c < 0x7F80 ∧ fwd ((c + 0x80) >>> 7) ≤ v then revgammaLoopSteps fwd v (c + 0x80) + 1 else 0
termination_by 0x7F80 - c
decreasing_by omega

/-- One component of `kc_revgamma_transform`: start at the reverse-table
estimate `rev[v >> 7]` and run the probing loop. The initial table read
requires `0 ≤ v`; an `int16_t` component is `< 0x8000`. -/
def kc_revgamma_component (fwd rev : GammaTable) (v : Int) : Option Int :=
  if 0 ≤ v ∧ v ≤ 0x7FFF then
    some (revgammaLoop fwd v.toNat (rev (v.toNat >>> 7)) : Int)
  else none

/-- `kc_revgamma_transform`: set `*x` to the reverse gamma transformation
of `*x`, component by component. -/
def kc_revgamma_transform (fwd rev : GammaTable) (x : kcolor) : Option kcolor :=
  match kc_revgamma_component fwd rev (x.a 0), kc_revgamma_component fwd rev (x.a 1),
        kc_revgamma_component fwd rev (x.a 2) with
  | some r0, some r1, some r2 => some ⟨![r0, r1, r2]⟩
  | _, _, _ => none

/-- `r` is the largest 15-bit value, stepped at 128-unit granularity
starting from the reverse-table estimate `rev[v >> 7]`, whose
forward-gamma-equivalent sampled at 128-unit granularity (`fwd[r >> 7]`)
does not exceed `v`. -/
def IsRevGammaBest (fwd rev : GammaTable) (v r : Nat) : Prop :=
  (∃ k, r = rev (v >>> 7) + 128 * k) ∧ r ≤ 0x7FFF ∧ fwd (r >>> 7) ≤ v ∧
  ∀ e k, e = rev (v >>> 7) + 128 * k → e ≤ 0x7FFF → fwd (e >>> 7) ≤ v → e ≤ r

/-- `kd3_tree`: the fields of the index the header's claims depend on:
the append-only color array `ks` (`nitems` is its length), the single
`disabled` index (`-1` when none), and the optional per-color transform
(identity when absent). -/
structure kd3_tree where
  ks : List kcolor
  disabled : Int
  transform : kcolor → kcolor

/-- `kd3->ks[j]` (callers guarantee `j < nitems`). -/
def ksget (ks : List kcolor) (j : Nat) : kcolor := ks.getD j default

/-- `kd3_disable`: `assert((unsigned)i < (unsigned)nitems);
assert(kd3->disabled < 0 || kd3->disabled == i); kd3->disabled = i;`.
A failed assertion aborts, modelled as `none`. -/
def kd3_disable (s : kd3_tree) (i : Int) : Option kd3_tree :=
  if 0 ≤ i ∧ i < (s.ks.length : Int) then
    if s.disabled < 0 ∨ s.disabled = i then some { s with disabled := i }
    else none
  else none

/-- `kd3_enable_all`: `kd3->disabled = -1;`. -/
def kd3_enable_all (s : kd3_tree) : kd3_tree := { s with disabled := -1 }

/-- Modelled from the spec: the body of `kd3_closest_transformed` is not in
the header. §4.6: a query scans the colors in index order, skips the
disabled index, keeps the best candidate (squared distance, lowest index on
ties), with the kd-tree and exclusive radius serving only as accelerators
of the same answer. `scanFrom dis k j l` scans colors `l` occupying indices
`j, j+1, ...`, returning the best (index, squared distance), or `none` when
every index is disabled. -/
def scanFrom (dis : Int) (k : kcolor) (j : Nat) : List kcolor → Option (Nat × Nat)
  | [] => none
  | c :: rest =>
    if (j : Int) = dis then scanFrom dis k (j + 1) rest
    else
      match scanFrom dis k (j + 1) rest with
      | none => some (j, kc_distance k c)
      | some (bj, bd) =>
        if kc_distance k c ≤ bd then some (j, kc_distance k c) else some (bj, bd)

/-- Modelled from the spec: `kd3_closest_transformed` returns the index of
the color in `*kd3` closest to `k`, never the disabled index (§4.6);
`none` when no enabled color exists. -/
def kd3_closest_transformed (s : kd3_tree) (k : kcolor) : Option Nat :=
  (scanFrom s.disabled k 0 s.ks).map Prod.fst

/-- Modelled from the spec: `kd3_closest8g` gamma-transforms the raw 8-bit
channels, applies `kd3->transform`, and delegates to
`kd3_closest_transformed` (§4.6, header comment). -/
def kd3_closest8g (fwd : GammaTable) (s : kd3_tree) (a0 a1 a2 : Int) : Option Nat :=
  (kc_set8g fwd a0 a1 a2).bind fun c => kd3_closest_transformed s (s.transform c)

/-- Modelled from the spec: `kd3_build_xradius` (body not in the header)
gives color `i` the largest exclusive squared radius derivable from its
nearest other color (§4.4): a quarter of the smallest squared distance to
any other color, unbounded (`⊤`) when there is no other color. -/
def kd3_xradius (ks : List kcolor) (i : Nat) : ℕ∞ :=
  ((List.range ks.length).filter (fun j => j != i)).foldr
    (fun j m => min ((kc_distance (ksget ks i) (ksget ks j) / 4 : Nat) : ℕ∞) m) ⊤

/-- `j0` is a nearest enabled color to `k`: in range, not disabled, and of
minimal squared distance among all enabled indices — the exhaustive
linear-scan characterization of a correct query answer. -/
def IsNearestEnabled (s : kd3_tree) (k : kcolor) (j0 : Nat) : Prop :=
  j0 < s.ks.length ∧ (j0 : Int) ≠ s.disabled ∧
  ∀ j, j < s.ks.length → (j : Int) ≠ s.disabled →
    kc_distance k (ksget s.ks j0) ≤ kc_distance k (ksget s.ks j)

lemma kc_luminance_bounds {x : kcolor} (h : kcInRange x) :
    0 ≤ kc_luminance x ∧ kc_luminance x ≤ KC_MAX := by
  obtain ⟨h00, h01⟩ := h 0
  obtain ⟨h10, h11⟩ := h 1
  obtain ⟨h20, h21⟩ := h 2
  unfold KC_MAX at *
  unfold kc_luminance
  rw [Int.fdiv_eq_ediv _ (by norm_num)]
  constructor
  · exact Int.ediv_nonneg (by linarith) (by norm_num)
  · have hle : 306 * x.a 0 + 601 * x.a 1 + 117 * x.a 2 ≤ 1024 * 32767 := by linarith
    calc (306 * x.a 0 + 601 * x.a 1 + 117 * x.a 2) / 1024
        ≤ (1024 * 32767) / 1024 := Int.ediv_le_ediv (by norm_num) hle
      _ = 32767 := by norm_num

lemma kc_luminance_collapsed (L : Int) : kc_luminance ⟨fun _ => L⟩ = L := by
  show Int.fdiv (306 * L + 601 * L + 117 * L) 1024 = L
  have h : 306 * L + 601 * L + 117 * L = 1024 * L := by ring
  rw [h]
  exact Int.mul_fdiv_cancel_left L (by norm_num)

/-- C8: for all kcolors `x`, `y`: `kc_distance(&x,&y) = kc_distance(&y,&x)`,
the result is non-negative, and `kc_distance(&x,&x) = 0`. -/
theorem kc_distance_symm_nonneg_refl (x y : kcolor) :
    kc_distance x y = kc_distance y x ∧ 0 ≤ kc_distance x y ∧ kc_distance x x = 0 := by
  refine ⟨?_, Nat.zero_le _, ?_⟩
  · unfold kc_distance
    congr 2
    ring
  · unfold kc_distance
    simp

/-- C5: for in-range kcolors, every per-component difference lies in
`[-32767, 32767]`, each square and the sum of the three squares fit in an
unsigned 32-bit integer, and the returned `uint32_t` is the exact
mathematical sum of squared differences. -/
theorem kc_distance_exact_in_uint32 (x y : kcolor) (hx : kcInRange x) (hy : kcInRange y) :
    (∀ d : Fin 3, -32767 ≤ x.a d - y.a d ∧ x.a d - y.a d ≤ 32767 ∧
      (x.a d - y.a d) * (x.a d - y.a d) < 2 ^ 32) ∧
    0 ≤ kcSqDist x y ∧ kcSqDist x y < 2 ^ 32 ∧
    (kc_distance x y : Int) = kcSqDist x y := by
  refine ⟨?_, kcSqDist_nonneg x y, kcSqDist_lt_of_inRange hx hy, kc_distance_exact hx hy⟩
  intro d
  obtain ⟨hx0, hx1⟩ := hx d
  obtain ⟨hy0, hy1⟩ := hy d
  unfold KC_MAX at hx1 hy1
  refine ⟨by linarith, by linarith, ?_⟩
  nlinarith

/-- Witness for C5 at concrete extreme in-range colors. -/
theorem kc_distance_exact_in_uint32_witness :
    (kcInRange ⟨![32767, 0, 5]⟩ ∧ kcInRange ⟨![0, 32767, 9]⟩) ∧
    ((∀ d : Fin 3, -32767 ≤ (kcolor.mk ![32767, 0, 5]).a d - (kcolor.mk ![0, 32767, 9]).a d ∧
        (kcolor.mk ![32767, 0, 5]).a d - (kcolor.mk ![0, 32767, 9]).a d ≤ 32767 ∧
        ((kcolor.mk ![32767, 0, 5]).a d - (kcolor.mk ![0, 32767, 9]).a d) *
          ((kcolor.mk ![32767, 0, 5]).a d - (kcolor.mk ![0, 32767, 9]).a d) < 2 ^ 32) ∧
      0 ≤ kcSqDist ⟨![32767, 0, 5]⟩ ⟨![0, 32767, 9]⟩ ∧
      kcSqDist ⟨![32767, 0, 5]⟩ ⟨![0, 32767, 9]⟩ < 2 ^ 32 ∧
      (kc_distance ⟨![32767, 0, 5]⟩ ⟨![0, 32767, 9]⟩ : Int) =
        kcSqDist ⟨![32767, 0, 5]⟩ ⟨![0, 32767, 9]⟩) :=
  ⟨⟨by decide, by decide⟩,
   kc_distance_exact_in_uint32 ⟨![32767, 0, 5]⟩ ⟨![0, 32767, 9]⟩ (by decide) (by decide)⟩

/-- C9: applying `kc_luminance_transform` twice to an in-range color equals
applying it once: the luminance of a collapsed color `(L,L,L)` is `L`. -/
theorem kc_luminance_transform_idempotent (x : kcolor) (h : kcInRange x) :
    kc_luminance_transform (kc_luminance_transform x) = kc_luminance_transform x := by
  unfold kc_luminance_transform
  congr 1
  funext d
  exact kc_luminance_collapsed (kc_luminance x)

/-- Witness for C9 at a concrete in-range color. -/
theorem kc_luminance_transform_idempotent_witness :
    kcInRange ⟨![5, 10, 200]⟩ ∧
    kc_luminance_transform (kc_luminance_transform ⟨![5, 10, 200]⟩) =
      kc_luminance_transform ⟨![5, 10, 200]⟩ :=
  ⟨by decide, kc_luminance_transform_idempotent ⟨![5, 10, 200]⟩ (by decide)⟩

/-- C3 counterexample: for the collapsed colors of `(0,0,0)` (luminance 0)
and `(4,0,0)` (luminance 1), the distance is `3`, not the squared
luminance difference `1`: each of the three equal components contributes
the squared difference once. -/
theorem luminance_collapse_distance_cex :
    (kc_distance (kc_luminance_transform ⟨![0, 0, 0]⟩) (kc_luminance_transform ⟨![4, 0, 0]⟩) : Int) ≠
      (kc_luminance (kc_luminance_transform ⟨![0, 0, 0]⟩) -
        kc_luminance (kc_luminance_transform ⟨![4, 0, 0]⟩)) ^ 2 := by
  decide

/-- C3 amended: after `kc_luminance_transform` all three components are
equal, and the distance between two collapsed in-range colors is `3` times
the squared difference of their luminance values. -/
theorem luminance_collapse_distance (x y : kcolor) (hx : kcInRange x) (hy : kcInRange y) :
    (∀ d e : Fin 3, (kc_luminance_transform x).a d = (kc_luminance_transform x).a e) ∧
    (kc_distance (kc_luminance_transform x) (kc_luminance_transform y) : Int) =
      3 * (kc_luminance (kc_luminance_transform x) -
            kc_luminance (kc_luminance_transform y)) ^ 2 := by
  refine ⟨fun d e => rfl, ?_⟩
  have hbx := kc_luminance_bounds hx
  have hby := kc_luminance_bounds hy
  have hx' : kcInRange (kc_luminance_transform x) := fun d => hbx
  have hy' : kcInRange (kc_luminance_transform y) := fun d => hby
  rw [kc_distance_exact hx' hy']
  show (kc_luminance x - kc_luminance y) * (kc_luminance x - kc_luminance y) +
      (kc_luminance x - kc_luminance y) * (kc_luminance x - kc_luminance y) +
      (kc_luminance x - kc_luminance y) * (kc_luminance x - kc_luminance y) = _
  rw [show kc_luminance (kc_luminance_transform x) = kc_luminance x from
        kc_luminance_collapsed (kc_luminance x),
      show kc_luminance (kc_luminance_transform y) = kc_luminance y from
        kc_luminance_collapsed (kc_luminance y)]
  ring

/-- Witness for C3's amended theorem at concrete in-range colors. -/
theorem luminance_collapse_distance_witness :
    (kcInRange ⟨![0, 0, 0]⟩ ∧ kcInRange ⟨![4, 0, 0]⟩) ∧
    ((∀ d e : Fin 3,
        (kc_luminance_transform ⟨![0, 0, 0]⟩).a d = (kc_luminance_transform ⟨![0, 0, 0]⟩).a e) ∧
      (kc_distance (kc_luminance_transform ⟨![0, 0, 0]⟩)
          (kc_luminance_transform ⟨![4, 0, 0]⟩) : Int) =
        3 * (kc_luminance (kc_luminance_transform ⟨![0, 0, 0]⟩) -
              kc_luminance (kc_luminance_transform ⟨![4, 0, 0]⟩)) ^ 2) :=
  ⟨⟨by decide, by decide⟩,
   luminance_collapse_distance ⟨![0, 0, 0]⟩ ⟨![4, 0, 0]⟩ (by decide) (by decide)⟩

/-- A small concrete gamma table for counterexamples and witnesses. -/
def tabLinear : GammaTable := fun i => 128 * i

/-- C6 counterexample: `kc_set8g` does not clamp: at raw channel `256` the
table access is out of bounds (fails), while the spec-claimed behavior —
clamping to `[0,255]` first — succeeds. -/
theorem kc_set8g_no_clamp_cex :
    kc_set8g tabLinear 256 0 0 = none ∧
    kc_set8g tabLinear (clamp8 256) (clamp8 0) (clamp8 0) ≠ none := by
  constructor
  · decide
  · decide

/-- C6 amended: `kc_set8g` indexes the forward gamma table directly with
the raw channel values, without applying `KC_CLAMPV` or any clamp; for
channels already in `[0, 255]` it never fails and returns the table
lookups, while an out-of-range channel is an out-of-bounds table access. -/
theorem kc_set8g_inrange (t : GammaTable) (a0 a1 a2 : Int)
    (h0 : 0 ≤ a0 ∧ a0 ≤ 255) (h1 : 0 ≤ a1 ∧ a1 ≤ 255) (h2 : 0 ≤ a2 ∧ a2 ≤ 255) :
    kc_set8g t a0 a1 a2 =
      some ⟨![(t a0.toNat : Int), (t a1.toNat : Int), (t a2.toNat : Int)]⟩ := by
  unfold kc_set8g gammaLookup
  rw [if_pos ⟨h0.1, by omega⟩, if_pos ⟨h1.1, by omega⟩, if_pos ⟨h2.1, by omega⟩]

/-- Witness for C6's amended theorem at concrete in-range channels. -/
theorem kc_set8g_inrange_witness :
    ((0 : Int) ≤ 3 ∧ (3 : Int) ≤ 255) ∧ ((0 : Int) ≤ 0 ∧ (0 : Int) ≤ 255) ∧
    ((0 : Int) ≤ 255 ∧ (255 : Int) ≤ 255) ∧
    kc_set8g tabLinear 3 0 255 =
      some ⟨![(tabLinear (3 : Int).toNat : Int), (tabLinear (0 : Int).toNat : Int),
              (tabLinear (255 : Int).toNat : Int)]⟩ :=
  ⟨by decide, by decide, by decide,
   kc_set8g_inrange tabLinear 3 0 255 (by decide) (by decide) (by decide)⟩

/-- C7: under the assertion preconditions (`i` in range, no other index
disabled), `kd3_disable` succeeds and records `i`; re-disabling the
currently disabled index is a no-op; `kd3_enable_all` unconditionally
clears the marker, after which no index is disabled. -/
theorem kd3_disable_enable_spec (s : kd3_tree) (i : Int)
    (h1 : 0 ≤ i ∧ i < (s.ks.length : Int)) (h2 : s.disabled < 0 ∨ s.disabled = i) :
    kd3_disable s i = some { s with disabled := i } ∧
    (s.disabled = i → kd3_disable s i = some s) ∧
    ∀ t : kd3_tree, (kd3_enable_all t).disabled = -1 ∧
      ∀ j : Nat, (j : Int) ≠ (kd3_enable_all t).disabled := by
  refine ⟨?_, ?_, ?_⟩
  · unfold kd3_disable
    rw [if_pos h1, if_pos h2]
  · intro hd
    unfold kd3_disable
    rw [if_pos h1, if_pos h2]
    obtain ⟨ks, dis, tr⟩ := s
    simp only at hd
    rw [hd]
  · intro t
    refine ⟨rfl, fun j => ?_⟩
    show (j : Int) ≠ -1
    omega

/-- Witness for C7 at a concrete one-color tree with nothing disabled. -/
theorem kd3_disable_enable_spec_witness :
    ((0 : Int) ≤ 0 ∧ (0 : Int) < ((kd3_tree.mk [⟨![0, 0, 0]⟩] (-1) id).ks.length : Int)) ∧
    ((kd3_tree.mk [⟨![0, 0, 0]⟩] (-1) id).disabled < 0 ∨
      (kd3_tree.mk [⟨![0, 0, 0]⟩] (-1) id).disabled = 0) ∧
    kd3_disable (kd3_tree.mk [⟨![0, 0, 0]⟩] (-1) id) 0 =
      some { kd3_tree.mk [⟨![0, 0, 0]⟩] (-1) id with disabled := 0 } :=
  ⟨⟨by decide, by decide⟩, Or.inl (by decide),
   (kd3_disable_enable_spec (kd3_tree.mk [⟨![0, 0, 0]⟩] (-1) id) 0
      ⟨by decide, by decide⟩ (Or.inl (by decide))).1⟩

lemma revgammaLoop_eq_steps (fwd : GammaTable) (v : Nat) :
    ∀ n c, 0x7F80 - c ≤ n → revgammaLoop fwd v c = c + 128 * revgammaLoopSteps fwd v c := by
  intro n
  induction n with
  | zero =>
    intro c hc
    have hg : ¬(c < 0x7F80 ∧ fwd ((c + 0x80) >>> 7) ≤ v) := fun h => by omega
    rw [revgammaLoop.eq_def, if_neg hg, revgammaLoopSteps.eq_def, if_neg hg]
    omega
  | succ n ih =>
    intro c hc
    by_cases hg : c < 0x7F80 ∧ fwd ((c + 0x80) >>> 7) ≤ v
    · rw [revgammaLoop.eq_def, if_pos hg, revgammaLoopSteps.eq_def, if_pos hg,
        ih (c + 0x80) (by omega)]
      ring
    · rw [revgammaLoop.eq_def, if_neg hg, revgammaLoopSteps.eq_def, if_neg hg]
      omega

lemma revgammaLoopSteps_le (fwd : GammaTable) (v : Nat) :
    ∀ n c, 0x7F80 ≤ c + 128 * n → revgammaLoopSteps fwd v c ≤ n := by
  intro n
  induction n with
  | zero =>
    intro c hc
    have hg : ¬(c < 0x7F80 ∧ fwd ((c + 0x80) >>> 7) ≤ v) := fun h => by omega
    rw [revgammaLoopSteps.eq_def, if_neg hg]
  | succ n ih =>
    intro c hc
    by_cases hg : c < 0x7F80 ∧ fwd ((c + 0x80) >>> 7) ≤ v
    · rw [revgammaLoopSteps.eq_def, if_pos hg]
      have := ih (c + 0x80) (by omega)
      omega
    · rw [revgammaLoopSteps.eq_def, if_neg hg]
      omega

/-- C10: for every forward table, query value and start value, the probing
loop of `kc_revgamma_transform` advances exactly `128` units per iteration
and performs at most `255` iterations (the guard `c < 0x7F80` bounds the
candidate, which strictly increases by `0x80` each round). -/
theorem revgammaLoop_terminates_in_255 (fwd : GammaTable) (v c : Nat) :
    revgammaLoop fwd v c = c + 128 * revgammaLoopSteps fwd v c ∧
    revgammaLoopSteps fwd v c ≤ 255 :=
  ⟨revgammaLoop_eq_steps fwd v (0x7F80 - c) c le_rfl,
   revgammaLoopSteps_le fwd v 255 c (by omega)⟩

lemma revgammaLoop_best (fwd : GammaTable)
    (hm : ∀ a b : Fin 256, a ≤ b → fwd a ≤ fwd b) (v : Nat) :
    ∀ n c, 0x7F80 - c ≤ n → c ≤ 0x7FFF → fwd (c >>> 7) ≤ v →
      (∃ k, revgammaLoop fwd v c = c + 128 * k) ∧
      revgammaLoop fwd v c ≤ 0x7FFF ∧
      fwd (revgammaLoop fwd v c >>> 7) ≤ v ∧
      ∀ e k, e = c + 128 * k → e ≤ 0x7FFF → fwd (e >>> 7) ≤ v →
        e ≤ revgammaLoop fwd v c := by
  intro n
  induction n with
  | zero =>
    intro c hc hcb hfc
    have hg : ¬(c < 0x7F80 ∧ fwd ((c + 0x80) >>> 7) ≤ v) := fun h => by omega
    rw [revgammaLoop.eq_def, if_neg hg]
    refine ⟨⟨0, by ring⟩, hcb, hfc, ?_⟩
    intro e k he heb hfe
    omega
  | succ n ih =>
    intro c hc hcb hfc
    by_cases hg : c < 0x7F80 ∧ fwd ((c + 0x80) >>> 7) ≤ v
    · rw [revgammaLoop.eq_def, if_pos hg]
      obtain ⟨hch, hfg⟩ := hg
      obtain ⟨⟨k, hk⟩, hb, hf, hmax⟩ := ih (c + 0x80) (by omega) (by omega) hfg
      refine ⟨⟨k + 1, by rw [hk]; ring⟩, hb, hf, ?_⟩
      intro e k' he heb hfe
      cases k' with
      | zero => omega
      | succ k'' => exact hmax e k'' (by omega) heb hfe
    · rw [revgammaLoop.eq_def, if_neg hg]
      refine ⟨⟨0, by ring⟩, hcb, hfc, ?_⟩
      intro e k he heb hfe
      cases k with
      | zero => omega
      | succ k'' =>
        by_cases hch : c < 0x7F80
        · have hvf : v < fwd ((c + 0x80) >>> 7) := by
            by_contra h'
            exact hg ⟨hch, Nat.le_of_not_lt h'⟩
          have hle : (c + 0x80) >>> 7 ≤ e >>> 7 := by
            simp only [Nat.shiftRight_eq_div_pow]
            exact Nat.div_le_div_right (by omega)
          have hi1 : (c + 0x80) >>> 7 < 256 := by
            simp only [Nat.shiftRight_eq_div_pow]
            omega
          have hi2 : e >>> 7 < 256 := by
            simp only [Nat.shiftRight_eq_div_pow]
            omega
          have hmono := hm ⟨(c + 0x80) >>> 7, hi1⟩ ⟨e >>> 7, hi2⟩ hle
          simp only [Fin.val_mk] at hmono
          omega
        · omega

/-- C4: with a monotone forward table, an in-range reverse-table estimate
whose sampled forward value does not exceed the component,
`kc_revgamma_transform` succeeds and sets every component to the largest
15-bit value — stepped at 128-unit granularity upward from the estimate —
whose forward-gamma-equivalent sampled at 128-unit granularity does not
exceed the original component. -/
theorem kc_revgamma_transform_best (fwd rev : GammaTable)
    (hm : ∀ a b : Fin 256, a ≤ b → fwd a ≤ fwd b) (x : kcolor)
    (hx : kcInRange x)
    (hrev : ∀ d : Fin 3, rev ((x.a d).toNat >>> 7) ≤ 0x7FFF)
    (hlow : ∀ d : Fin 3, fwd (rev ((x.a d).toNat >>> 7) >>> 7) ≤ (x.a d).toNat) :
    ∃ y, kc_revgamma_transform fwd rev x = some y ∧
      ∀ d : Fin 3, 0 ≤ y.a d ∧ IsRevGammaBest fwd rev (x.a d).toNat (y.a d).toNat := by
  have hbest : ∀ d : Fin 3,
      IsRevGammaBest fwd rev (x.a d).toNat
        (revgammaLoop fwd (x.a d).toNat (rev ((x.a d).toNat >>> 7))) := by
    intro d
    obtain ⟨h1, h2, h3, h4⟩ :=
      revgammaLoop_best fwd hm (x.a d).toNat
        (0x7F80 - rev ((x.a d).toNat >>> 7)) (rev ((x.a d).toNat >>> 7))
        le_rfl (hrev d) (hlow d)
    exact ⟨h1, h2, h3, fun e k he => h4 e k he⟩
  have hcomp : ∀ d : Fin 3, kc_revgamma_component fwd rev (x.a d) =
      some ((revgammaLoop fwd (x.a d).toNat (rev ((x.a d).toNat >>> 7)) : Nat) : Int) := by
    intro d
    obtain ⟨hd0, hd1⟩ := hx d
    unfold kc_revgamma_component
    rw [if_pos ⟨hd0, by unfold KC_MAX at hd1; omega⟩]
  refine ⟨⟨fun d => ((revgammaLoop fwd (x.a d).toNat (rev ((x.a d).toNat >>> 7)) : Nat) : Int)⟩,
    ?_, ?_⟩
  · unfold kc_revgamma_transform
    rw [hcomp 0, hcomp 1, hcomp 2]
    exact congrArg some (congrArg kcolor.mk (by funext d; fin_cases d <;> rfl))
  · intro d
    refine ⟨Int.natCast_nonneg _, ?_⟩
    simpa only [Int.toNat_natCast] using hbest d

/-- Witness for C4 with the concrete linear tables `i ↦ 128 * i` and a
concrete in-range color. -/
theorem kc_revgamma_transform_best_witness :
    (∀ a b : Fin 256, a ≤ b → tabLinear a ≤ tabLinear b) ∧
    kcInRange ⟨![0, 1000, 32767]⟩ ∧
    (∀ d : Fin 3, tabLinear (((kcolor.mk ![0, 1000, 32767]).a d).toNat >>> 7) ≤ 0x7FFF) ∧
    (∀ d : Fin 3,
      tabLinear (tabLinear (((kcolor.mk ![0, 1000, 32767]).a d).toNat >>> 7) >>> 7) ≤
        ((kcolor.mk ![0, 1000, 32767]).a d).toNat) ∧
    ∃ y, kc_revgamma_transform tabLinear tabLinear ⟨![0, 1000, 32767]⟩ = some y ∧
      ∀ d : Fin 3, 0 ≤ y.a d ∧
        IsRevGammaBest tabLinear tabLinear ((kcolor.mk ![0, 1000, 32767]).a d).toNat
          (y.a d).toNat := by
  have hm : ∀ a b : Fin 256, a ≤ b → tabLinear a ≤ tabLinear b :=
    fun a b h => Nat.mul_le_mul_left 128 h
  exact ⟨hm, by decide, by decide, by decide,
    kc_revgamma_transform_best tabLinear tabLinear hm ⟨![0, 1000, 32767]⟩
      (by decide) (by decide) (by decide)⟩

lemma ksget_mem {ks : List kcolor} {j : Nat} (h : j < ks.length) : ksget ks j ∈ ks := by
  unfold ksget
  rw [List.getD_eq_getElem ks default h]
  exact List.getElem_mem h

lemma scanFrom_sound (dis : Int) (k : kcolor) :
    ∀ (l : List kcolor) (j bj bd : Nat), scanFrom dis k j l = some (bj, bd) →
      ∃ m, m < l.length ∧ bj = j + m ∧ (bj : Int) ≠ dis ∧ bd = kc_distance k (ksget l m) := by
  intro l
  induction l with
  | nil => intro j bj bd h; simp [scanFrom] at h
  | cons c rest ih =>
    intro j bj bd h
    by_cases hj : (j : Int) = dis
    · simp only [scanFrom] at h
      rw [if_pos hj] at h
      obtain ⟨m, hm, hbj, hne, hbd⟩ := ih (j + 1) bj bd h
      exact ⟨m + 1, by simp; omega, by omega, hne, hbd⟩
    · simp only [scanFrom] at h
      rw [if_neg hj] at h
      rcases hr : scanFrom dis k (j + 1) rest with _ | ⟨bj', bd'⟩
      · rw [hr] at h
        simp only [Option.some.injEq, Prod.mk.injEq] at h
        obtain ⟨h1, h2⟩ := h
        exact ⟨0, by simp, by omega, by rw [← h1]; exact hj, by rw [← h2]; rfl⟩
      · rw [hr] at h
        dsimp only at h
        by_cases hcmp : kc_distance k c ≤ bd'
        · rw [if_pos hcmp] at h
          simp only [Option.some.injEq, Prod.mk.injEq] at h
          obtain ⟨h1, h2⟩ := h
          exact ⟨0, by simp, by omega, by rw [← h1]; exact hj, by rw [← h2]; rfl⟩
        · rw [if_neg hcmp] at h
          simp only [Option.some.injEq, Prod.mk.injEq] at h
          obtain ⟨h1, h2⟩ := h
          obtain ⟨m, hm, hbj, hne, hbd⟩ := ih (j + 1) bj' bd' hr
          exact ⟨m + 1, by simp; omega, by omega, by rw [← h1]; exact hne,
            by rw [← h2]; exact hbd⟩

lemma scanFrom_none (dis : Int) (k : kcolor) :
    ∀ (l : List kcolor) (j : Nat), scanFrom dis k j l = none →
      ∀ m, m < l.length → ((j + m : Nat) : Int) = dis := by
  intro l
  induction l with
  | nil => intro j _ m hm; simp at hm
  | cons c rest ih =>
    intro j h m hm
    by_cases hj : (j : Int) = dis
    · simp only [scanFrom] at h
      rw [if_pos hj] at h
      cases m with
      | zero => simpa using hj
      | succ m' =>
        have := ih (j + 1) h m' (by simp at hm; omega)
        have harith : ((j + 1) + m' : Nat) = (j + (m' + 1) : Nat) := by omega
        rw [harith] at this
        exact this
    · exfalso
      simp only [scanFrom] at h
      rw [if_neg hj] at h
      rcases hr : scanFrom dis k (j + 1) rest with _ | ⟨bj', bd'⟩
      · rw [hr] at h; simp at h
      · rw [hr] at h
        dsimp only at h
        by_cases hcmp : kc_distance k c ≤ bd'
        · rw [if_pos hcmp] at h; simp at h
        · rw [if_neg hcmp] at h; simp at h

lemma scanFrom_min (dis : Int) (k : kcolor) :
    ∀ (l : List kcolor) (j bj bd : Nat), scanFrom dis k j l = some (bj, bd) →
      ∀ m, m < l.length → ((j + m : Nat) : Int) ≠ dis → bd ≤ kc_distance k (ksget l m) := by
  intro l
  induction l with
  | nil => intro j bj bd h; simp [scanFrom] at h
  | cons c rest ih =>
    intro j bj bd h m hm hme
    by_cases hj : (j : Int) = dis
    · simp only [scanFrom] at h
      rw [if_pos hj] at h
      cases m with
      | zero => exact absurd (by simpa using hj) hme
      | succ m' =>
        have := ih (j + 1) bj bd h m' (by simp at hm; omega)
          (by rw [show ((j + 1) + m' : Nat) = (j + (m' + 1) : Nat) from by omega]; exact hme)
        exact this
    · simp only [scanFrom] at h
      rw [if_neg hj] at h
      rcases hr : scanFrom dis k (j + 1) rest with _ | ⟨bj', bd'⟩
      · rw [hr] at h
        simp only [Option.some.injEq, Prod.mk.injEq] at h
        obtain ⟨h1, h2⟩ := h
        cases m with
        | zero => exact le_of_eq h2.symm
        | succ m' =>
          exfalso
          have := scanFrom_none dis k rest (j + 1) hr m' (by simp at hm; omega)
          rw [show ((j + 1) + m' : Nat) = (j + (m' + 1) : Nat) from by omega] at this
          exact hme this
      · rw [hr] at h
        dsimp only at h
        by_cases hcmp : kc_distance k c ≤ bd'
        · rw [if_pos hcmp] at h
          simp only [Option.some.injEq, Prod.mk.injEq] at h
          obtain ⟨h1, h2⟩ := h
          cases m with
          | zero => exact le_of_eq h2.symm
          | succ m' =>
            have := ih (j + 1) bj' bd' hr m' (by simp at hm; omega)
              (by rw [show ((j + 1) + m' : Nat) = (j + (m' + 1) : Nat) from by omega]; exact hme)
            calc bd ≤ bd' := by rw [← h2]; exact hcmp
              _ ≤ _ := this
        · rw [if_neg hcmp] at h
          simp only [Option.some.injEq, Prod.mk.injEq] at h
          obtain ⟨h1, h2⟩ := h
          cases m with
          | zero =>
            have : bd' ≤ kc_distance k c := le_of_lt (lt_of_not_le hcmp)
            rw [← h2]
            exact this
          | succ m' =>
            have := ih (j + 1) bj' bd' hr m' (by simp at hm; omega)
              (by rw [show ((j + 1) + m' : Nat) = (j + (m' + 1) : Nat) from by omega]; exact hme)
            rw [h2] at this
            exact this

lemma scanFrom_eq_of_strict (dis : Int) (k : kcolor) :
    ∀ (l : List kcolor) (j i : Nat), i < l.length →
      ((j + i : Nat) : Int) ≠ dis →
      (∀ m, m < l.length → m ≠ i →
        kc_distance k (ksget l i) < kc_distance k (ksget l m)) →
      scanFrom dis k j l = some (j + i, kc_distance k (ksget l i)) := by
  intro l
  induction l with
  | nil => intro j i hi; simp at hi
  | cons c rest ih =>
    intro j i hi hne hstrict
    cases i with
    | zero =>
      have hj : ¬((j : Int) = dis) := by simpa using hne
      simp only [scanFrom]
      rw [if_neg hj]
      rcases hr : scanFrom dis k (j + 1) rest with _ | ⟨bj', bd'⟩
      · rfl
      · obtain ⟨m', hm', hbj, hne', hbd⟩ := scanFrom_sound dis k rest (j + 1) bj' bd' hr
        have hlt : kc_distance k (ksget (c :: rest) 0) < kc_distance k (ksget (c :: rest) (m' + 1)) :=
          hstrict (m' + 1) (by simp; omega) (by omega)
        have hle : kc_distance k c ≤ bd' := by
          rw [hbd]
          exact le_of_lt hlt
        dsimp only
        rw [if_pos hle]
        rfl
    | succ i' =>
      have hrec := ih (j + 1) i' (by simp at hi; omega)
        (by rw [show ((j + 1) + i' : Nat) = (j + (i' + 1) : Nat) from by omega]; exact hne)
        (fun m hm hmi => hstrict (m + 1) (by simp; omega) (by omega))
      rw [show ((j + 1) + i' : Nat) = (j + (i' + 1) : Nat) from by omega] at hrec
      simp only [scanFrom]
      by_cases hj : (j : Int) = dis
      · rw [if_pos hj, hrec]
        rfl
      · rw [if_neg hj]
        rcases hr : scanFrom dis k (j + 1) rest with _ | ⟨bj', bd'⟩
        · rw [hrec] at hr; simp at hr
        · rw [hrec] at hr
          simp only [Option.some.injEq, Prod.mk.injEq] at hr
          obtain ⟨h1, h2⟩ := hr
          have hlt : kc_distance k (ksget (c :: rest) (i' + 1)) < kc_distance k (ksget (c :: rest) 0) :=
            hstrict 0 (by simp) (by omega)
          have hnle : ¬(kc_distance k c ≤ bd') := by
            rw [← h2]
            exact not_le_of_lt hlt
          dsimp only
          rw [if_neg hnle, ← h1, ← h2]
          rfl

lemma foldr_min_le (f : Nat → ℕ∞) :
    ∀ (l : List Nat) (j : Nat), j ∈ l → l.foldr (fun j m => min (f j) m) ⊤ ≤ f j := by
  intro l
  induction l with
  | nil => simp
  | cons a t ih =>
    intro j hj
    rcases List.mem_cons.mp hj with rfl | hj'
    · exact min_le_left _ _
    · calc (a :: t).foldr (fun j m => min (f j) m) ⊤
          ≤ t.foldr (fun j m => min (f j) m) ⊤ := min_le_right _ _
        _ ≤ f j := ih j hj'

lemma xradius_lt_elim {ks : List kcolor} {i : Nat} {v : Nat}
    (h : (v : ℕ∞) < kd3_xradius ks i) :
    ∀ j, j < ks.length → j ≠ i → v < kc_distance (ksget ks i) (ksget ks j) / 4 := by
  intro j hj hij
  have hmem : j ∈ (List.range ks.length).filter (fun j => j != i) := by
    simp only [List.mem_filter, List.mem_range, bne_iff_ne, ne_eq, decide_not]
    exact ⟨hj, by simpa using hij⟩
  have hle : kd3_xradius ks i ≤ ((kc_distance (ksget ks i) (ksget ks j) / 4 : Nat) : ℕ∞) :=
    foldr_min_le (fun j => ((kc_distance (ksget ks i) (ksget ks j) / 4 : Nat) : ℕ∞)) _ j hmem
  exact_mod_cast lt_of_lt_of_le h hle

lemma quarter_radius_key (u0 u1 u2 v0 v1 v2 : Int)
    (h : 4 * (u0 * u0 + u1 * u1 + u2 * u2) + 4 ≤
      (u0 + v0) * (u0 + v0) + (u1 + v1) * (u1 + v1) + (u2 + v2) * (u2 + v2)) :
    u0 * u0 + u1 * u1 + u2 * u2 < v0 * v0 + v1 * v1 + v2 * v2 := by
  by_contra hba
  push_neg at hba
  have ha : 0 ≤ u0 * u0 + u1 * u1 + u2 * u2 := by
    have := mul_self_nonneg u0
    have := mul_self_nonneg u1
    have := mul_self_nonneg u2
    linarith
  have hb : 0 ≤ v0 * v0 + v1 * v1 + v2 * v2 := by
    have := mul_self_nonneg v0
    have := mul_self_nonneg v1
    have := mul_self_nonneg v2
    linarith
  have hs : (u0 * u0 + u1 * u1 + u2 * u2) + 2 ≤ u0 * v0 + u1 * v1 + u2 * v2 := by nlinarith
  have hcs : (u0 * v0 + u1 * v1 + u2 * v2) * (u0 * v0 + u1 * v1 + u2 * v2) ≤
      (u0 * u0 + u1 * u1 + u2 * u2) * (v0 * v0 + v1 * v1 + v2 * v2) := by
    nlinarith [sq_nonneg (u0 * v1 - u1 * v0), sq_nonneg (u0 * v2 - u2 * v0),
      sq_nonneg (u1 * v2 - u2 * v1)]
  have hs2 : ((u0 * u0 + u1 * u1 + u2 * u2) + 2) * ((u0 * u0 + u1 * u1 + u2 * u2) + 2) ≤
      (u0 * v0 + u1 * v1 + u2 * v2) * (u0 * v0 + u1 * v1 + u2 * v2) :=
    mul_le_mul hs hs (by linarith) (by linarith)
  nlinarith [hs2, hcs, hba, ha, hb]

/-- Any query strictly inside a quarter of the squared distance between
`xi` and `xj` (measured from `xi`) is strictly closer to `xi` than to `xj`. -/
lemma strict_closer {xi xj q : kcolor} (hxi : kcInRange xi) (hxj : kcInRange xj)
    (hq : kcInRange q) (h : kc_distance xi q < kc_distance xi xj / 4) :
    kc_distance q xi < kc_distance q xj := by
  have h4 : 4 * kc_distance xi q + 4 ≤ kc_distance xi xj := by omega
  have h4z : (4 : Int) * kcSqDist xi q + 4 ≤ kcSqDist xi xj := by
    have := h4
    zify at this
    rw [kc_distance_exact hxi hq, kc_distance_exact hxi hxj] at this
    exact this
  have key := quarter_radius_key (xi.a 0 - q.a 0) (xi.a 1 - q.a 1) (xi.a 2 - q.a 2)
    (q.a 0 - xj.a 0) (q.a 1 - xj.a 1) (q.a 2 - xj.a 2)
    (by unfold kcSqDist at h4z; nlinarith [h4z])
  have goalZ : kcSqDist q xi < kcSqDist q xj := by
    unfold kcSqDist
    nlinarith [key]
  have : (kc_distance q xi : Int) < (kc_distance q xj : Int) := by
    rw [kc_distance_exact hq hxi, kc_distance_exact hq hxj]
    exact goalZ
  exact_mod_cast this

/-- C1 counterexample: the exclusive-radius guarantee as stated fails once
index `i` itself is the disabled index: with palette `[(0,0,0),(100,0,0)]`,
index `0` disabled, the query `(0,0,0)` lies strictly inside the exclusive
radius of index `0` yet the query does not return `0`. -/
theorem xradius_soundness_disabled_cex :
    ((kc_distance (ksget [kcolor.mk ![0, 0, 0], kcolor.mk ![100, 0, 0]] 0)
        ⟨![0, 0, 0]⟩ : Nat) : ℕ∞) <
      kd3_xradius [kcolor.mk ![0, 0, 0], kcolor.mk ![100, 0, 0]] 0 ∧
    kd3_closest_transformed (kd3_tree.mk [⟨![0, 0, 0]⟩, ⟨![100, 0, 0]⟩] 0 id)
      ⟨![0, 0, 0]⟩ ≠ some 0 := by
  constructor
  · decide
  · decide

/-- C1 amended: for an in-range palette and query, if `i` is a valid index
that is not the currently disabled index and the query lies strictly inside
the exclusive radius of `i`, then the query returns `i`. -/
theorem xradius_sound_when_enabled (s : kd3_tree) (q : kcolor) (i : Nat)
    (hi : i < s.ks.length)
    (hrange : ∀ c ∈ s.ks, kcInRange c) (hq : kcInRange q)
    (hdis : (i : Int) ≠ s.disabled)
    (hx : ((kc_distance (ksget s.ks i) q : Nat) : ℕ∞) < kd3_xradius s.ks i) :
    kd3_closest_transformed s q = some i := by
  have hstrict : ∀ m, m < s.ks.length → m ≠ i →
      kc_distance q (ksget s.ks i) < kc_distance q (ksget s.ks m) := by
    intro m hm hmi
    have h4 := xradius_lt_elim hx m hm hmi
    exact strict_closer (hrange _ (ksget_mem hi)) (hrange _ (ksget_mem hm)) hq h4
  unfold kd3_closest_transformed
  rw [scanFrom_eq_of_strict s.disabled q s.ks 0 i hi (by simpa using hdis) hstrict]
  simp

/-- Witness for C1's amended theorem on a concrete two-color palette. -/
theorem xradius_sound_when_enabled_witness :
    (0 < (kd3_tree.mk [⟨![0, 0, 0]⟩, ⟨![100, 0, 0]⟩] (-1) id).ks.length) ∧
    (∀ c ∈ (kd3_tree.mk [⟨![0, 0, 0]⟩, ⟨![100, 0, 0]⟩] (-1) id).ks, kcInRange c) ∧
    kcInRange ⟨![1, 0, 0]⟩ ∧
    ((0 : Nat) : Int) ≠ (kd3_tree.mk [⟨![0, 0, 0]⟩, ⟨![100, 0, 0]⟩] (-1) id).disabled ∧
    ((kc_distance (ksget (kd3_tree.mk [⟨![0, 0, 0]⟩, ⟨![100, 0, 0]⟩] (-1) id).ks 0)
        ⟨![1, 0, 0]⟩ : Nat) : ℕ∞) <
      kd3_xradius (kd3_tree.mk [⟨![0, 0, 0]⟩, ⟨![100, 0, 0]⟩] (-1) id).ks 0 ∧
    kd3_closest_transformed (kd3_tree.mk [⟨![0, 0, 0]⟩, ⟨![100, 0, 0]⟩] (-1) id)
      ⟨![1, 0, 0]⟩ = some 0 :=
  ⟨by decide, by decide, by decide, by decide, by decide,
   xradius_sound_when_enabled (kd3_tree.mk [⟨![0, 0, 0]⟩, ⟨![100, 0, 0]⟩] (-1) id)
     ⟨![1, 0, 0]⟩ 0 (by decide) (by decide) (by decide) (by decide) (by decide)⟩

/-- C2: once index `i` is disabled, no query (`kd3_closest_transformed` or
`kd3_closest8g`) returns `i`; whenever some other valid index exists the
query returns an enabled index of minimal squared distance among all
enabled indices (the exhaustive linear-scan answer). -/
theorem disabled_index_exclusion (s : kd3_tree) (i : Nat)
    (hd : s.disabled = (i : Int))
    (hex : ∃ j, j < s.ks.length ∧ j ≠ i) :
    ∀ q : kcolor,
      kd3_closest_transformed s q ≠ some i ∧
      (∃ j0, kd3_closest_transformed s q = some j0 ∧ IsNearestEnabled s q j0) ∧
      ∀ (fwd : GammaTable) (a0 a1 a2 : Int), kd3_closest8g fwd s a0 a1 a2 ≠ some i := by
  have main : ∀ q : kcolor, kd3_closest_transformed s q ≠ some i ∧
      ∃ j0, kd3_closest_transformed s q = some j0 ∧ IsNearestEnabled s q j0 := by
    intro q
    obtain ⟨j, hj, hji⟩ := hex
    rcases hscan : scanFrom s.disabled q 0 s.ks with _ | ⟨bj, bd⟩
    · exfalso
      have := scanFrom_none s.disabled q s.ks 0 hscan j hj
      rw [hd] at this
      simp at this
      exact hji this
    · obtain ⟨m, hm, hbj, hne, hbd⟩ := scanFrom_sound s.disabled q s.ks 0 bj bd hscan
      have hbjm : bj = m := by omega
      have hclosest : kd3_closest_transformed s q = some bj := by
        unfold kd3_closest_transformed
        rw [hscan]
        rfl
      have hbji : bj ≠ i := by
        intro hcon
        apply hne
        rw [hcon, hd]
      refine ⟨?_, bj, hclosest, ?_, hne, ?_⟩
      · rw [hclosest]
        simp only [ne_eq, Option.some.injEq]
        exact hbji
      · rw [← hbjm] at hm
        exact hm
      · intro j' hj' hj'e
        have := scanFrom_min s.disabled q s.ks 0 bj bd hscan j' hj' (by simpa using hj'e)
        rw [hbjm, ← hbd]
        exact this
  intro q
  refine ⟨(main q).1, (main q).2, ?_⟩
  intro fwd a0 a1 a2
  unfold kd3_closest8g
  rcases hset : kc_set8g fwd a0 a1 a2 with _ | c
  · exact fun hcon => Option.noConfusion hcon
  · exact (main (s.transform c)).1

/-- Witness for C2 on a concrete two-color palette with index 0 disabled,
instantiated at the query equal to the disabled color itself. -/
theorem disabled_index_exclusion_witness :
    (kd3_tree.mk [⟨![0, 0, 0]⟩, ⟨![100, 0, 0]⟩] 0 id).disabled = ((0 : Nat) : Int) ∧
    (∃ j, j < (kd3_tree.mk [⟨![0, 0, 0]⟩, ⟨![100, 0, 0]⟩] 0 id).ks.length ∧ j ≠ 0) ∧
    (kd3_closest_transformed (kd3_tree.mk [⟨![0, 0, 0]⟩, ⟨![100, 0, 0]⟩] 0 id)
        ⟨![0, 0, 0]⟩ ≠ some 0 ∧
      (∃ j0, kd3_closest_transformed (kd3_tree.mk [⟨![0, 0, 0]⟩, ⟨![100, 0, 0]⟩] 0 id)
          ⟨![0, 0, 0]⟩ = some j0 ∧
        IsNearestEnabled (kd3_tree.mk [⟨![0, 0, 0]⟩, ⟨![100, 0, 0]⟩] 0 id) ⟨![0, 0, 0]⟩ j0) ∧
      ∀ (fwd : GammaTable) (a0 a1 a2 : Int),
        kd3_closest8g fwd (kd3_tree.mk [⟨![0, 0, 0]⟩, ⟨![100, 0, 0]⟩] 0 id) a0 a1 a2 ≠
          some 0) :=
  ⟨by decide, ⟨1, by decide, by decide⟩,
   disabled_index_exclusion (kd3_tree.mk [⟨![0, 0, 0]⟩, ⟨![100, 0, 0]⟩] 0 id) 0
     (by decide) ⟨1, by decide, by decide⟩ ⟨![0, 0, 0]⟩⟩

end Kcolor
